import Mathlib

/-!
Shallow embedding of the quadratic-voting pallet
(`src/pallets/quadvoting/src/lib.rs`) of `tonyalaribe/substrate-quadvoting`.

Conventions of the embedding:
* `T::Hash`, `T::AccountId`, `T::BlockNumber` and balances are all modelled
  as `Nat`; block numbers in Substrate are unsigned machine integers, so the
  subtraction `block_number - T::OneBlock::get()` in `on_initialize` is
  modelled by `checkedSub`, which returns `none` exactly when the unsigned
  subtraction would underflow (a panic / arithmetic fault in the runtime).
* The five storage items `Topics`, `TopicsNextEra`, `TopicsCurrEra`,
  `Votes` and `Winners` are the fields of `State`; storage maps become
  total functions with the `OptionQuery` / `unwrap_or(vec![])` defaults of
  the source, and the `StorageValue<_, Vec<_>, OptionQuery>` items keep
  their `Option` wrapper.
* The external `ReservableCurrency` is modelled by per-account `free` and
  `reserved` balances; `reserve` moves funds atomically and fails (with no
  state change) when the free balance is insufficient.
* Dispatchables of old (non-transactional) FRAME apply their storage writes
  in program order, so they are embedded as `State × Option Error`: the
  returned state is the storage as left behind, whether or not an error was
  returned.  `ensure_signed` is modelled by passing the signed account
  directly.  Event deposits have no storage effect and are omitted.
* `BTreeMap` counting in `on_initialize` is embedded by `btreeInsertInc`
  (a key-sorted association list, matching `BTreeMap` iteration order) and
  Rust's `Iterator::max_by_key` (which returns the last element among
  equally maximal ones) by `maxStep`.
-/

namespace QuadVoting

/-- `Topic<AccountId, Balance, BlockNumber>` from the source. -/
structure Topic where
  data : List Nat
  provider : Nat
  deposit : Nat
  since : Nat
deriving DecidableEq

/-- The pallet `Config` constants, plus the runtime hasher `T::Hashing`. -/
structure Config where
  eraDuration : Nat
  oneBlock : Nat
  maxVotes : Nat
  hashFn : List Nat → Nat

/-- The `#[pallet::error]` enum, with one extra constructor for the
dispatch error propagated out of `T::Currency::reserve`. -/
inductive Error where
  | DuplicateTopic
  | InvalidTopicHash
  | VoterReachedMaxVotes
  | CannotReserve
deriving DecidableEq

/-- The pallet storage (`Topics`, `TopicsNextEra`, `TopicsCurrEra`,
`Votes`, `Winners`) together with the balances backing
`T::Currency`. -/
structure State where
  topics : Nat → Option Topic
  topicsNextEra : Option (List Nat)
  topicsCurrEra : Option (List Nat)
  votes : Nat → List (Nat × Nat)
  winners : Nat → Option Nat
  free : Nat → Nat
  reserved : Nat → Nat

/-- Unsigned subtraction as executed on `T::BlockNumber`: `none` models the
underflow panic of `a - b` when `b > a`. -/
def checkedSub (a b : Nat) : Option Nat :=
  if b ≤ a then some (a - b) else none

/-- `T::Currency::reserve(&who, amount)`: atomically move `amount` from the
free to the reserved balance of `who`, failing with no state change when
the free balance is insufficient. -/
def reserve (s : State) (who amount : Nat) : Option State :=
  if amount ≤ s.free who then
    some { s with
      free := Function.update s.free who (s.free who - amount),
      reserved := Function.update s.reserved who (s.reserved who + amount) }
  else none

/-- The hard-coded base vote fee (`let fee = 10;`, line 237). -/
def baseFee : Nat := 10

/-- The fee computed at line 238 of the source:
`((votes_by_topic_who + 1) ^ 2) * fee`.  In Rust `^` is bitwise XOR (not
exponentiation), so this is `((k + 1) XOR 2) * 10`. -/
def quadraticVotingFee (k : Nat) : Nat :=
  (Nat.xor (k + 1) 2) * baseFee

/-- The fixed submission deposit of `submit_topic`
(`let deposit = <BalanceOf<T>>::from(10 as u32);`). -/
def submissionDeposit : Nat := 10

/-- `submit_topic` (lines 188–213).  Storage writes are applied in program
order; an error after a write leaves the write in place, as in
non-transactional FRAME dispatch. -/
def submit_topic (cfg : Config) (s : State) (who : Nat)
    (topic_bytes : List Nat) (block_number : Nat) : State × Option Error :=
  let topic_hash := cfg.hashFn topic_bytes
  if (s.topics topic_hash).isSome then (s, some Error.DuplicateTopic)
  else
    match reserve s who submissionDeposit with
    | none => (s, some Error.CannotReserve)
    | some s1 =>
      let topic : Topic :=
        { data := topic_bytes, provider := who,
          deposit := submissionDeposit, since := block_number }
      let s2 := { s1 with
        topics := Function.update s1.topics topic_hash (some topic) }
      let hashes := s2.topicsNextEra.getD []
      if topic_hash ∈ hashes then (s2, some Error.DuplicateTopic)
      else ({ s2 with topicsNextEra := some (hashes ++ [topic_hash]) }, none)

/-- `vote_topic` (lines 216–248). -/
def vote_topic (cfg : Config) (s : State) (who topic_hash block_number : Nat) :
    State × Option Error :=
  let era_duration := cfg.eraDuration
  let curr_era := ((block_number % era_duration) + era_duration) % era_duration
  let votes := s.votes curr_era
  let counted := votes.foldl
    (fun p r =>
      if r.1 = topic_hash ∧ r.2 = who then (p.1 + 1, p.2 + 1)
      else if r.2 = who then (p.1, p.2 + 1)
      else p)
    ((0, 0) : Nat × Nat)
  if counted.2 ≤ cfg.maxVotes then
    match reserve s who (quadraticVotingFee counted.1) with
    | none => (s, some Error.CannotReserve)
    | some s1 =>
      ({ s1 with
          votes := Function.update s1.votes block_number
            (s1.votes block_number ++ [(topic_hash, who)]) }, none)
  else (s, some Error.VoterReachedMaxVotes)

/-- One step of the `BTreeMap` counting loop
`*counts.entry(word).or_insert(0) += 1`: insert into / increment a
key-sorted association list (keys strictly ascending, as in `BTreeMap`
iteration order). -/
def btreeInsertInc (h : Nat) : List (Nat × Nat) → List (Nat × Nat)
  | [] => [(h, 1)]
  | (k, c) :: m =>
    if h < k then (h, 1) :: (k, c) :: m
    else if h = k then (k, c + 1) :: m
    else (k, c) :: btreeInsertInc h m

/-- The whole counting loop of `on_initialize`: fold the topic hashes of
the vote list into the sorted count map. -/
def countsOf (topics : List Nat) : List (Nat × Nat) :=
  topics.foldl (fun m h => btreeInsertInc h m) []

/-- One step of Rust's `Iterator::max_by_key(|entry| entry.1)`: the new
element replaces the accumulator whenever its count is `≥`, so among
equally maximal entries the last one iterated wins. -/
def maxStep (acc : Option (Nat × Nat)) (p : Nat × Nat) : Option (Nat × Nat) :=
  match acc with
  | none => some p
  | some q => if q.2 ≤ p.2 then some p else some q

/-- The winner selection of `on_initialize` (lines 156–169) as a function
of the vote list it reads: unzip the topic hashes, count them in a
`BTreeMap`, and take `max_by_key` over the (key-ascending) entries. -/
def tallyVotes (votes : List (Nat × Nat)) : Option Nat :=
  ((countsOf (votes.map Prod.fst)).foldl maxStep none).map Prod.fst

/-- The storage key read by the era-boundary tally (line 155):
`((block_number - T::OneBlock::get()) / era_duration) * era_duration`,
written with truncated `Nat` subtraction. -/
def prevEraKey (cfg : Config) (block_number : Nat) : Nat :=
  ((block_number - cfg.oneBlock) / cfg.eraDuration) * cfg.eraDuration

/-- `on_initialize` (lines 148–182), called `advance` here.  Returns
`none` exactly when the unsigned computation
`block_number - T::OneBlock::get()` underflows (the panic path); otherwise
`some` of the updated storage. -/
def advance (cfg : Config) (s : State) (block_number : Nat) : Option State :=
  if block_number % cfg.eraDuration = 0 then
    match checkedSub block_number cfg.oneBlock with
    | none => none
    | some bmo =>
      let prev_era := (bmo / cfg.eraDuration) * cfg.eraDuration
      let winner := tallyVotes (s.votes prev_era)
      let s1 :=
        match winner with
        | none => s
        | some k => { s with winners := Function.update s.winners prev_era (some k) }
      some { s1 with topicsCurrEra := s1.topicsNextEra, topicsNextEra := none }
  else some s

/-- A concrete configuration matching the documented runtime: 10-block
eras (`Each era === 10 blocks`), `OneBlock = 1`, a vote cap of 16, and a
simple deterministic stand-in hasher. -/
def cfg0 : Config :=
  { eraDuration := 10, oneBlock := 1, maxVotes := 16,
    hashFn := fun l => l.foldl (fun a x => a + x) 0 }

/-- Genesis-like storage with well-funded accounts. -/
def emptyState : State :=
  { topics := fun _ => none, topicsNextEra := none, topicsCurrEra := none,
    votes := fun _ => [], winners := fun _ => none,
    free := fun _ => 1000, reserved := fun _ => 0 }

end QuadVoting

namespace QuadVoting

/-- First lookup of a key in an association list (0 when absent). -/
def lookupC : List (Nat × Nat) → Nat → Nat
  | [], _ => 0
  | (k, c) :: m, h => if k = h then c else lookupC m h

theorem btreeInsertInc_fst_mem (h : Nat) :
    ∀ (m : List (Nat × Nat)) (p : Nat × Nat), p ∈ btreeInsertInc h m →
      p.1 = h ∨ p.1 ∈ m.map Prod.fst := by
  intro m
  induction m with
  | nil =>
    intro p hp
    rw [btreeInsertInc, List.mem_singleton] at hp
    subst hp
    exact Or.inl rfl
  | cons kc m ih =>
    intro p hp
    obtain ⟨k, c⟩ := kc
    by_cases h1 : h < k
    · rw [btreeInsertInc, if_pos h1] at hp
      rcases List.mem_cons.mp hp with hp | hp
      · subst hp; exact Or.inl rfl
      · right
        rcases List.mem_cons.mp hp with hp | hp
        · subst hp; simp
        · simp only [List.map_cons, List.mem_cons]
          exact Or.inr (List.mem_map_of_mem Prod.fst hp)
    · by_cases h2 : h = k
      · rw [btreeInsertInc, if_neg h1, if_pos h2] at hp
        rcases List.mem_cons.mp hp with hp | hp
        · subst hp; exact Or.inl h2.symm
        · simp only [List.map_cons, List.mem_cons]
          exact Or.inr (Or.inr (List.mem_map_of_mem Prod.fst hp))
      · rw [btreeInsertInc, if_neg h1, if_neg h2] at hp
        rcases List.mem_cons.mp hp with hp | hp
        · subst hp; simp
        · rcases ih p hp with h3 | h3
          · exact Or.inl h3
          · simp only [List.map_cons, List.mem_cons]
            exact Or.inr (Or.inr h3)

theorem pairwise_btreeInsertInc (h : Nat) (m : List (Nat × Nat))
    (hm : m.Pairwise (fun p q => p.1 < q.1)) :
    (btreeInsertInc h m).Pairwise (fun p q => p.1 < q.1) := by
  induction m with
  | nil => simp [btreeInsertInc]
  | cons kc m ih =>
    obtain ⟨k, c⟩ := kc
    rw [List.pairwise_cons] at hm
    obtain ⟨hk, hm⟩ := hm
    by_cases h1 : h < k
    · rw [btreeInsertInc, if_pos h1, List.pairwise_cons]
      constructor
      · intro p hp
        rcases List.mem_cons.mp hp with hp | hp
        · subst hp; exact h1
        · exact lt_trans h1 (hk p hp)
      · rw [List.pairwise_cons]; exact ⟨hk, hm⟩
    · by_cases h2 : h = k
      · rw [btreeInsertInc, if_neg h1, if_pos h2, List.pairwise_cons]
        exact ⟨hk, hm⟩
      · rw [btreeInsertInc, if_neg h1, if_neg h2, List.pairwise_cons]
        constructor
        · intro p hp
          rcases btreeInsertInc_fst_mem h m p hp with h3 | h3
          · rw [h3]; omega
          · rcases List.mem_map.mp h3 with ⟨q, hq, hq1⟩
            rw [← hq1]
            exact hk q hq
        · exact ih hm

theorem lookupC_absent (h : Nat) :
    ∀ (m : List (Nat × Nat)), (∀ p ∈ m, p.1 ≠ h) → lookupC m h = 0 := by
  intro m
  induction m with
  | nil => intro; rfl
  | cons kc m ih =>
    intro habs
    obtain ⟨k, c⟩ := kc
    have hk : k ≠ h := habs (k, c) (List.mem_cons_self _ _)
    rw [lookupC, if_neg hk]
    exact ih fun p hp => habs p (List.mem_cons_of_mem _ hp)

theorem lookupC_btreeInsertInc_self (h : Nat) :
    ∀ (m : List (Nat × Nat)), m.Pairwise (fun p q => p.1 < q.1) →
      lookupC (btreeInsertInc h m) h = lookupC m h + 1 := by
  intro m
  induction m with
  | nil => intro; simp [btreeInsertInc, lookupC]
  | cons kc m ih =>
    intro hm
    obtain ⟨k, c⟩ := kc
    rw [List.pairwise_cons] at hm
    obtain ⟨hk, hm⟩ := hm
    by_cases h1 : h < k
    · have hk0 : lookupC m h = 0 := by
        apply lookupC_absent
        intro p hp
        have := hk p hp
        omega
      have hkh : k ≠ h := by omega
      rw [btreeInsertInc, if_pos h1, lookupC, if_pos rfl, lookupC, if_neg hkh, hk0]
    · by_cases h2 : h = k
      · have hkh : k = h := h2.symm
        rw [btreeInsertInc, if_neg h1, if_pos h2, lookupC, if_pos hkh,
          lookupC, if_pos hkh]
      · have hkh : k ≠ h := fun hc => h2 hc.symm
        rw [btreeInsertInc, if_neg h1, if_neg h2, lookupC, if_neg hkh,
          lookupC, if_neg hkh]
        exact ih hm

theorem lookupC_btreeInsertInc_other (h h' : Nat) (hne : h' ≠ h) :
    ∀ (m : List (Nat × Nat)),
      lookupC (btreeInsertInc h m) h' = lookupC m h' := by
  have hneh : h ≠ h' := fun hc => hne hc.symm
  intro m
  induction m with
  | nil => simp [btreeInsertInc, lookupC, hneh]
  | cons kc m ih =>
    obtain ⟨k, c⟩ := kc
    by_cases h1 : h < k
    · rw [btreeInsertInc, if_pos h1, lookupC, if_neg hneh, lookupC]
    · by_cases h2 : h = k
      · have : k ≠ h' := h2 ▸ hneh
        rw [btreeInsertInc, if_neg h1, if_pos h2, lookupC, if_neg this,
          lookupC, if_neg this]
      · by_cases h3 : k = h'
        · rw [btreeInsertInc, if_neg h1, if_neg h2, lookupC, if_pos h3,
            lookupC, if_pos h3]
        · rw [btreeInsertInc, if_neg h1, if_neg h2, lookupC, if_neg h3,
            lookupC, if_neg h3]
          exact ih

theorem pairwise_foldl_ins :
    ∀ (l : List Nat) (m : List (Nat × Nat)),
      m.Pairwise (fun p q => p.1 < q.1) →
      (l.foldl (fun m h => btreeInsertInc h m) m).Pairwise
        (fun p q => p.1 < q.1) := by
  intro l
  induction l with
  | nil => intro m hm; exact hm
  | cons x l ih => intro m hm; exact ih _ (pairwise_btreeInsertInc x m hm)

theorem lookupC_foldl_ins (k : Nat) :
    ∀ (l : List Nat) (m : List (Nat × Nat)),
      m.Pairwise (fun p q => p.1 < q.1) →
      lookupC (l.foldl (fun m h => btreeInsertInc h m) m) k
        = lookupC m k + l.count k := by
  intro l
  induction l with
  | nil => intro m _; simp
  | cons x l ih =>
    intro m hm
    simp only [List.foldl_cons]
    rw [ih _ (pairwise_btreeInsertInc x m hm)]
    by_cases hx : k = x
    · subst hx
      rw [lookupC_btreeInsertInc_self k m hm]
      simp [List.count_cons]
      omega
    · rw [lookupC_btreeInsertInc_other x k hx m]
      simp [List.count_cons, hx]

theorem countsOf_pairwise (l : List Nat) :
    (countsOf l).Pairwise (fun p q => p.1 < q.1) :=
  pairwise_foldl_ins l [] (by simp)

theorem lookupC_countsOf (l : List Nat) (k : Nat) :
    lookupC (countsOf l) k = l.count k := by
  have := lookupC_foldl_ins k l [] (by simp)
  simpa [countsOf, lookupC] using this

theorem lookupC_of_mem :
    ∀ (m : List (Nat × Nat)), m.Pairwise (fun p q => p.1 < q.1) →
      ∀ (k c : Nat), (k, c) ∈ m → lookupC m k = c := by
  intro m
  induction m with
  | nil => intro _ k c hc; simp at hc
  | cons kc m ih =>
    intro hm k c hc
    obtain ⟨k', c'⟩ := kc
    rw [List.pairwise_cons] at hm
    obtain ⟨hk, hm⟩ := hm
    rcases List.mem_cons.mp hc with hc | hc
    · rw [Prod.mk.injEq] at hc
      rw [lookupC, if_pos hc.1.symm, hc.2]
    · have hne : k' ≠ k := by
        have := hk (k, c) hc
        simp only at this
        omega
      rw [lookupC, if_neg hne]
      exact ih hm k c hc

theorem mem_of_lookupC :
    ∀ (m : List (Nat × Nat)) (k : Nat), lookupC m k ≠ 0 →
      (k, lookupC m k) ∈ m := by
  intro m
  induction m with
  | nil => intro k hk; exact absurd rfl hk
  | cons kc m ih =>
    intro k hk
    obtain ⟨k', c'⟩ := kc
    by_cases h1 : k' = k
    · subst h1
      rw [lookupC, if_pos rfl] at hk ⊢
      exact List.mem_cons_self _ _
    · rw [lookupC, if_neg h1] at hk ⊢
      exact List.mem_cons_of_mem _ (ih k hk)

theorem maxStep_some (acc : Option (Nat × Nat)) (x : Nat × Nat) :
    ∃ r, maxStep acc x = some r ∧ x.2 ≤ r.2 ∧
      (∀ q, acc = some q → q.2 ≤ r.2) ∧ (r = x ∨ acc = some r) := by
  cases acc with
  | none =>
    refine ⟨x, rfl, le_refl _, ?_, Or.inl rfl⟩
    intro q hq
    exact absurd hq (by simp)
  | some q =>
    by_cases hq : q.2 ≤ x.2
    · refine ⟨x, ?_, le_refl _, ?_, Or.inl rfl⟩
      · rw [maxStep]; exact if_pos hq
      · intro q' hq'
        rw [Option.some_inj] at hq'
        rw [← hq']
        exact hq
    · refine ⟨q, ?_, by omega, ?_, Or.inr rfl⟩
      · rw [maxStep]; exact if_neg hq
      · intro q' hq'
        rw [Option.some_inj] at hq'
        rw [← hq']

theorem foldl_maxStep_eq_none :
    ∀ (l : List (Nat × Nat)) (acc : Option (Nat × Nat)),
      l.foldl maxStep acc = none → acc = none ∧ l = [] := by
  intro l
  induction l with
  | nil => intro acc h; exact ⟨h, rfl⟩
  | cons x l ih =>
    intro acc h
    simp only [List.foldl_cons] at h
    obtain ⟨r, hr, -⟩ := maxStep_some acc x
    have := (ih _ h).1
    rw [hr] at this
    exact absurd this (by simp)

theorem foldl_maxStep_spec :
    ∀ (l : List (Nat × Nat)) (acc : Option (Nat × Nat)) (p : Nat × Nat),
      l.foldl maxStep acc = some p →
      (p ∈ l ∨ acc = some p) ∧ (∀ q ∈ l, q.2 ≤ p.2) ∧
        (∀ r, acc = some r → r.2 ≤ p.2) := by
  intro l
  induction l with
  | nil =>
    intro acc p h
    simp only [List.foldl_nil] at h
    refine ⟨Or.inr h, by simp, ?_⟩
    intro r hr
    rw [h, Option.some_inj] at hr
    rw [hr]
  | cons x l ih =>
    intro acc p h
    simp only [List.foldl_cons] at h
    obtain ⟨r, hr, hxr, haccr, hor⟩ := maxStep_some acc x
    rw [hr] at h
    obtain ⟨hmem, hall, hlast⟩ := ih (some r) p h
    have hrp : r.2 ≤ p.2 := hlast r rfl
    refine ⟨?_, ?_, ?_⟩
    · rcases hmem with hm | hm
      · exact Or.inl (List.mem_cons_of_mem _ hm)
      · rw [Option.some_inj] at hm
        subst hm
        rcases hor with hrx | hacc
        · exact Or.inl (hrx ▸ List.mem_cons_self _ _)
        · exact Or.inr hacc
    · intro q hq
      rcases List.mem_cons.mp hq with hq | hq
      · subst hq; omega
      · exact hall q hq
    · intro r' hr'
      exact le_trans (haccr r' hr') hrp

end QuadVoting

namespace QuadVoting

theorem checkedSub_eq_some {a b c : Nat} (h : checkedSub a b = some c) :
    b ≤ a ∧ c = a - b := by
  rw [checkedSub] at h
  by_cases hba : b ≤ a
  · rw [if_pos hba, Option.some_inj] at h
    exact ⟨hba, h.symm⟩
  · rw [if_neg hba] at h
    exact absurd h (by simp)

theorem btreeInsertInc_ne_nil (h : Nat) (m : List (Nat × Nat)) :
    btreeInsertInc h m ≠ [] := by
  cases m with
  | nil => simp [btreeInsertInc]
  | cons kc m =>
    obtain ⟨k, c⟩ := kc
    rw [btreeInsertInc]
    by_cases h1 : h < k
    · rw [if_pos h1]; simp
    · rw [if_neg h1]
      by_cases h2 : h = k
      · rw [if_pos h2]; simp
      · rw [if_neg h2]; simp

theorem foldl_ins_ne_nil :
    ∀ (l : List Nat) (m : List (Nat × Nat)), m ≠ [] →
      l.foldl (fun m h => btreeInsertInc h m) m ≠ [] := by
  intro l
  induction l with
  | nil => intro m hm; exact hm
  | cons x l ih =>
    intro m hm
    simp only [List.foldl_cons]
    exact ih _ (btreeInsertInc_ne_nil x m)

theorem countsOf_ne_nil (l : List Nat) (hl : l ≠ []) : countsOf l ≠ [] := by
  cases l with
  | nil => exact absurd rfl hl
  | cons x l =>
    rw [countsOf, List.foldl_cons]
    exact foldl_ins_ne_nil l _ (btreeInsertInc_ne_nil x [])

theorem foldl_ins_fst_mem :
    ∀ (l : List Nat) (m : List (Nat × Nat)) (p : Nat × Nat),
      p ∈ l.foldl (fun m h => btreeInsertInc h m) m →
      p.1 ∈ m.map Prod.fst ∨ p.1 ∈ l := by
  intro l
  induction l with
  | nil => intro m p hp; exact Or.inl (List.mem_map_of_mem Prod.fst hp)
  | cons x l ih =>
    intro m p hp
    simp only [List.foldl_cons] at hp
    rcases ih _ p hp with hm | hm
    · rcases List.mem_map.mp hm with ⟨q, hq, hq1⟩
      rcases btreeInsertInc_fst_mem x m q hq with h1 | h1
      · exact Or.inr (by rw [← hq1, h1]; exact List.mem_cons_self _ _)
      · exact Or.inl (hq1 ▸ h1)
    · exact Or.inr (List.mem_cons_of_mem _ hm)

theorem countsOf_fst_mem (l : List Nat) (p : Nat × Nat)
    (hp : p ∈ countsOf l) : p.1 ∈ l := by
  rcases foldl_ins_fst_mem l [] p hp with h | h
  · exact absurd h (by simp)
  · exact h

/-- Claim C6: the rollover tally returns `none` (and the rollover writes no
winner) when the tallied vote log is empty, and on any non-empty log it
selects a topic hash occurring in the log whose occurrence count is
maximal over all topics; in particular, if one topic has strictly more
votes than every other topic in the log, that topic is the tally
result. -/
theorem c6_tally_strict_max :
    tallyVotes [] = none ∧
    (∀ (votes : List (Nat × Nat)), votes ≠ [] →
      ∃ w, tallyVotes votes = some w ∧ w ∈ votes.map Prod.fst ∧
        ∀ h ∈ votes.map Prod.fst,
          (votes.map Prod.fst).count h ≤ (votes.map Prod.fst).count w) ∧
    (∀ (votes : List (Nat × Nat)) (hstar : Nat),
      hstar ∈ votes.map Prod.fst →
      (∀ h ∈ votes.map Prod.fst, h ≠ hstar →
        (votes.map Prod.fst).count h < (votes.map Prod.fst).count hstar) →
      tallyVotes votes = some hstar) ∧
    (∀ (cfg : Config) (s : State) (b : Nat) (s₁ : State),
      b % cfg.eraDuration = 0 → advance cfg s b = some s₁ →
      s.votes (prevEraKey cfg b) = [] → s₁.winners = s.winners) := by
  refine ⟨rfl, ?_, ?_, ?_⟩
  · intro votes hne
    cases hfold : (countsOf (votes.map Prod.fst)).foldl maxStep none with
    | none =>
      obtain ⟨-, hnil⟩ := foldl_maxStep_eq_none _ _ hfold
      exact absurd hnil (countsOf_ne_nil _ (by simpa using hne))
    | some p =>
      obtain ⟨hmemp, hallp, -⟩ := foldl_maxStep_spec _ _ _ hfold
      have hpmem : p ∈ countsOf (votes.map Prod.fst) := by
        rcases hmemp with h | h
        · exact h
        · exact absurd h (by simp)
      have hp2 : p.2 = (votes.map Prod.fst).count p.1 := by
        have := lookupC_of_mem _ (countsOf_pairwise (votes.map Prod.fst))
          p.1 p.2 (by simpa using hpmem)
        rw [lookupC_countsOf] at this
        exact this.symm
      refine ⟨p.1, by rw [tallyVotes, hfold]; rfl,
        countsOf_fst_mem _ p hpmem, ?_⟩
      intro h hh
      have hh0 : (votes.map Prod.fst).count h ≠ 0 := by
        intro h0
        exact absurd hh (List.count_eq_zero.mp h0)
      have hhmem : (h, (votes.map Prod.fst).count h)
          ∈ countsOf (votes.map Prod.fst) := by
        have := mem_of_lookupC (countsOf (votes.map Prod.fst)) h
          (by rw [lookupC_countsOf]; exact hh0)
        rwa [lookupC_countsOf] at this
      have := hallp _ hhmem
      omega
  · intro votes hstar hmem hmax
    have hcount : lookupC (countsOf (votes.map Prod.fst)) hstar
        = (votes.map Prod.fst).count hstar := lookupC_countsOf _ _
    have hpos : (votes.map Prod.fst).count hstar ≠ 0 := by
      intro h0
      exact absurd hmem (List.count_eq_zero.mp h0)
    have hstarmem : (hstar, (votes.map Prod.fst).count hstar)
        ∈ countsOf (votes.map Prod.fst) := by
      have := mem_of_lookupC (countsOf (votes.map Prod.fst)) hstar
        (by rw [hcount]; exact hpos)
      rwa [hcount] at this
    rw [tallyVotes]
    cases hfold : (countsOf (votes.map Prod.fst)).foldl maxStep none with
    | none =>
      obtain ⟨-, hnil⟩ := foldl_maxStep_eq_none _ _ hfold
      rw [hnil] at hstarmem
      exact absurd hstarmem (by simp)
    | some p =>
      obtain ⟨hmemp, hallp, -⟩ := foldl_maxStep_spec _ _ _ hfold
      have hpmem : p ∈ countsOf (votes.map Prod.fst) := by
        rcases hmemp with h | h
        · exact h
        · exact absurd h (by simp)
      have hp2 : p.2 = (votes.map Prod.fst).count p.1 := by
        have := lookupC_of_mem _ (countsOf_pairwise (votes.map Prod.fst))
          p.1 p.2 (by simpa using hpmem)
        rw [lookupC_countsOf] at this
        exact this.symm
      have hsc : (votes.map Prod.fst).count hstar ≤ p.2 :=
        hallp _ hstarmem
      have hp1mem : p.1 ∈ votes.map Prod.fst := by
        by_contra hcon
        have hc0 : (votes.map Prod.fst).count p.1 = 0 :=
          List.count_eq_zero.mpr hcon
        omega
      by_cases hph : p.1 = hstar
      · simp [hph]
      · have := hmax p.1 hp1mem hph
        omega
  · intro cfg s b s₁ hb hadv hempty
    rw [advance, if_pos hb] at hadv
    cases hcs : checkedSub b cfg.oneBlock with
    | none => rw [hcs] at hadv; exact absurd hadv (by simp)
    | some bmo =>
      obtain ⟨hle, hbmo⟩ := checkedSub_eq_some hcs
      rw [hcs] at hadv
      simp only at hadv
      have hkey : (bmo / cfg.eraDuration) * cfg.eraDuration = prevEraKey cfg b := by
        rw [hbmo, prevEraKey]
      rw [hkey, hempty] at hadv
      have : tallyVotes [] = none := rfl
      rw [this] at hadv
      rw [Option.some_inj] at hadv
      rw [← hadv]

end QuadVoting

namespace QuadVoting

theorem reserve_eq_some {s : State} {who amt : Nat} {s1 : State}
    (h : reserve s who amt = some s1) :
    amt ≤ s.free who ∧
      s1 = { s with
        free := Function.update s.free who (s.free who - amt),
        reserved := Function.update s.reserved who (s.reserved who + amt) } := by
  rw [reserve] at h
  by_cases hle : amt ≤ s.free who
  · rw [if_pos hle, Option.some_inj] at h
    exact ⟨hle, h.symm⟩
  · rw [if_neg hle] at h
    exact absurd h (by simp)

/-- Claim C5: at an era-boundary tick at which `advance` completes, the
rollover replaces the active topic list (`TopicsCurrEra`) wholesale with
the sequence that was queued for the next era (`TopicsNextEra`), and
empties the queued list. -/
theorem c5_rollover_promotes_queue (cfg : Config) (s : State) (b : Nat)
    (s₁ : State) (hb : b % cfg.eraDuration = 0)
    (hadv : advance cfg s b = some s₁) :
    s₁.topicsCurrEra = s.topicsNextEra ∧ s₁.topicsNextEra = none := by
  rw [advance, if_pos hb] at hadv
  cases hcs : checkedSub b cfg.oneBlock with
  | none => rw [hcs] at hadv; exact absurd hadv (by simp)
  | some bmo =>
    rw [hcs] at hadv
    simp only at hadv
    cases htv : tallyVotes (s.votes ((bmo / cfg.eraDuration) * cfg.eraDuration)) with
    | none =>
      rw [htv, Option.some_inj] at hadv
      rw [← hadv]
      exact ⟨rfl, rfl⟩
    | some k =>
      rw [htv] at hadv
      simp only at hadv
      rw [Option.some_inj] at hadv
      rw [← hadv]
      exact ⟨rfl, rfl⟩

/-- Claim C7: invoking `advance` again at the same boundary tick does not
change the winner entry written by the first invocation, and an invocation
at tick `b` can only write the winner entry at the single key
`prevEraKey cfg b` (the previous era's rollover key), so each era's entry
is written only during that era's rollover and is never overwritten. -/
theorem c7_winner_write_idempotent (cfg : Config) (s : State) (b : Nat)
    (s₁ s₂ : State) (h1 : advance cfg s b = some s₁)
    (h2 : advance cfg s₁ b = some s₂) :
    s₂.winners = s₁.winners ∧
      ∀ e, e ≠ prevEraKey cfg b → s₁.winners e = s.winners e := by
  by_cases hb : b % cfg.eraDuration = 0
  · rw [advance, if_pos hb] at h1 h2
    cases hcs : checkedSub b cfg.oneBlock with
    | none => rw [hcs] at h1; exact absurd h1 (by simp)
    | some bmo =>
      obtain ⟨hle, hbmo⟩ := checkedSub_eq_some hcs
      have hkey : (bmo / cfg.eraDuration) * cfg.eraDuration = prevEraKey cfg b := by
        rw [hbmo, prevEraKey]
      rw [hcs] at h1 h2
      simp only at h1 h2
      cases htv : tallyVotes (s.votes ((bmo / cfg.eraDuration) * cfg.eraDuration)) with
      | none =>
        rw [htv, Option.some_inj] at h1
        have hv : s₁.votes = s.votes := by rw [← h1]
        have hw : s₁.winners = s.winners := by rw [← h1]
        rw [hv, htv] at h2
        simp only at h2
        rw [Option.some_inj] at h2
        constructor
        · rw [← h2]
        · intro e he
          rw [hw]
      | some k =>
        rw [htv] at h1
        simp only at h1
        rw [Option.some_inj] at h1
        have hv : s₁.votes = s.votes := by rw [← h1]
        have hw : s₁.winners
            = Function.update s.winners
                ((bmo / cfg.eraDuration) * cfg.eraDuration) (some k) := by
          rw [← h1]
        rw [hv, htv] at h2
        simp only at h2
        rw [Option.some_inj] at h2
        constructor
        · rw [← h2]
          show Function.update s₁.winners
            ((bmo / cfg.eraDuration) * cfg.eraDuration) (some k) = s₁.winners
          rw [hw, Function.update_idem]
        · intro e he
          rw [hw]
          apply Function.update_noteq
          intro hek
          exact he (hek.trans hkey)
  · rw [advance, if_neg hb, Option.some_inj] at h1 h2
    rw [← h1] at h2 ⊢
    rw [← h2]
    exact ⟨rfl, fun e _ => rfl⟩

/-- Claim C8 (amended): for every tick at and after the first block
(`OneBlock ≤ tick`, in particular every tick ≥ 1 actually driven through
the hook by the chain), `advance` has no failure or panic path: it always
returns a state.  (At tick 0 the previous-era computation underflows; see
the counterexample.) -/
theorem c8_no_panic_from_first_block (cfg : Config) (s : State) (b : Nat)
    (_hd : 0 < cfg.eraDuration) (hob : cfg.oneBlock ≤ b) :
    ∃ s', advance cfg s b = some s' := by
  rw [advance]
  by_cases hb : b % cfg.eraDuration = 0
  · rw [if_pos hb, checkedSub, if_pos hob]
    simp only
    exact ⟨_, rfl⟩
  · rw [if_neg hb]
    exact ⟨s, rfl⟩

/-- Claim C9 (amended): from every state satisfying the reachability
invariant that each hash queued in `TopicsNextEra` is already present in
`Topics` (which holds in every state reachable from genesis, making the
defensive queue check of `submit_topic` unreachable), every failing
`submit_topic` or `vote_topic` call leaves the storage and balances
exactly unchanged — all-or-nothing failure semantics. -/
theorem c9_all_or_nothing (cfg : Config) (s : State)
    (hinv : ∀ h ∈ s.topicsNextEra.getD [], (s.topics h).isSome = true) :
    (∀ who topic_bytes b s' e,
      submit_topic cfg s who topic_bytes b = (s', some e) → s' = s) ∧
    (∀ who topic_hash b s' e,
      vote_topic cfg s who topic_hash b = (s', some e) → s' = s) := by
  constructor
  · intro who topic_bytes b s' e h
    simp only [submit_topic] at h
    split at h
    · rw [Prod.mk.injEq] at h
      exact h.1.symm
    · rename_i hno
      split at h
      · rw [Prod.mk.injEq] at h
        exact h.1.symm
      · rename_i s1 hres
        obtain ⟨-, hs1⟩ := reserve_eq_some hres
        subst hs1
        split at h
        · rename_i hmem
          simp only at hmem
          exact absurd (hinv _ hmem) hno
        · rw [Prod.mk.injEq] at h
          exact absurd h.2 (by simp)
  · intro who topic_hash b s' e h
    simp only [vote_topic] at h
    split at h
    · split at h
      · rw [Prod.mk.injEq] at h
        exact h.1.symm
      · rw [Prod.mk.injEq] at h
        exact absurd h.2 (by simp)
    · rw [Prod.mk.injEq] at h
      exact h.1.symm

/-- Claim C10: every successful `vote_topic` call appends exactly one
record — the pair of the voted topic hash and the voter — to the vote log
entry keyed by the current block number, leaves every other vote-log entry
unchanged, and leaves `Topics`, `TopicsNextEra`, `TopicsCurrEra` and
`Winners` completely unchanged. -/
theorem c10_vote_success_frame (cfg : Config) (s : State)
    (who topic_hash b : Nat) (s' : State)
    (h : vote_topic cfg s who topic_hash b = (s', none)) :
    s'.votes b = s.votes b ++ [(topic_hash, who)] ∧
    (∀ b', b' ≠ b → s'.votes b' = s.votes b') ∧
    s'.topics = s.topics ∧
    s'.topicsNextEra = s.topicsNextEra ∧
    s'.topicsCurrEra = s.topicsCurrEra ∧
    s'.winners = s.winners := by
  simp only [vote_topic] at h
  split at h
  · split at h
    · rw [Prod.mk.injEq] at h
      exact absurd h.2 (by simp)
    · rename_i s1 hres
      obtain ⟨-, hs1⟩ := reserve_eq_some hres
      subst hs1
      rw [Prod.mk.injEq] at h
      rw [← h.1]
      refine ⟨?_, ?_, rfl, rfl, rfl, rfl⟩
      · show Function.update (s.votes) b (s.votes b ++ [(topic_hash, who)]) b
          = s.votes b ++ [(topic_hash, who)]
        rw [Function.update_same]
      · intro b' hb'
        show Function.update (s.votes) b (s.votes b ++ [(topic_hash, who)]) b'
          = s.votes b'
        rw [Function.update_noteq hb']
  · rw [Prod.mk.injEq] at h
    exact absurd h.2 (by simp)

end QuadVoting

namespace QuadVoting

/-- One prior identical vote stored under block-number key 3. -/
def sOneVote : State :=
  { emptyState with votes := fun b => if b = 3 then [(7, 1)] else [] }

/-- Claim C1, code evaluated at the failing input: the source computes the
fee with Rust `^` (bitwise XOR), not exponentiation.  The first vote
(0 prior votes) is charged `(1 XOR 2) * 10 = 30`, not `1^2 * 10 = 10`,
and the second vote for the same topic is charged `(2 XOR 2) * 10 = 0`,
not `2^2 * 10 = 40`. -/
theorem c1_fee_is_xor_not_square :
    quadraticVotingFee 0 = 30 ∧ quadraticVotingFee 1 = 0 ∧
    (0 + 1) ^ 2 * baseFee = 10 ∧ (1 + 1) ^ 2 * baseFee = 40 ∧
    (vote_topic cfg0 emptyState 1 7 3).2 = none ∧
    (vote_topic cfg0 emptyState 1 7 3).1.reserved 1 = 30 ∧
    (vote_topic cfg0 sOneVote 1 7 3).2 = none ∧
    (vote_topic cfg0 sOneVote 1 7 3).1.reserved 1 = 0 := by
  decide

/-- One vote by voter 1 for topic 7 recorded under block-number key 12. -/
def sPrior : State :=
  { emptyState with votes := fun b => if b = 12 then [(7, 1)] else [] }

/-- Claim C2, code evaluated at the failing input (EraDuration 10, a vote
at block 12, era index 12 / 10 = 1): the vote is appended under the raw
block number 12, the prior-vote count is read from key 12 % 10 = 2 (so a
prior identical vote stored under key 12 is not seen and the first-vote
fee 30 is charged instead of the second-vote fee 0), and the rollover at
the next boundary tick 20 reads key ((20-1)/10)*10 = 10, so the era-1
vote is never tallied and no winner is written under any key. -/
theorem c2_vote_log_keys_disagree :
    (vote_topic cfg0 sPrior 1 7 12).2 = none ∧
    (vote_topic cfg0 sPrior 1 7 12).1.votes 12 = [(7, 1), (7, 1)] ∧
    (vote_topic cfg0 sPrior 1 7 12).1.votes (12 / cfg0.eraDuration) = [] ∧
    (vote_topic cfg0 sPrior 1 7 12).1.reserved 1 = 30 ∧
    prevEraKey cfg0 20 = 10 ∧
    ((advance cfg0 (vote_topic cfg0 sPrior 1 7 12).1 20).map
        (fun s₁ => (s₁.winners (12 / cfg0.eraDuration), s₁.winners 10,
          s₁.winners 12, s₁.winners 20)))
      = some (none, none, none, none) := by
  decide

/-- A state whose current-era active topic list is explicitly empty. -/
def sActiveEmpty : State :=
  { emptyState with topicsCurrEra := some [] }

/-- Claim C3, code evaluated at the failing input: `vote_topic` performs
no membership check against `TopicsCurrEra`, so a vote for hash 7 succeeds
and is appended although the active topic list is empty (and the declared
`InvalidTopicHash` error is never raised). -/
theorem c3_inactive_topic_vote_succeeds :
    7 ∉ sActiveEmpty.topicsCurrEra.getD [] ∧
    (vote_topic cfg0 sActiveEmpty 1 7 0).2 = none ∧
    (vote_topic cfg0 sActiveEmpty 1 7 0).1.votes 0 = [(7, 1)] := by
  decide

/-- MaxVotes = 1. -/
def cfgM : Config := { cfg0 with maxVotes := 1 }

/-- Voter 1 already has 1 = MaxVotes recorded vote under key 0 (at block 0
the append key and the count key coincide). -/
def sCap : State :=
  { emptyState with votes := fun b => if b = 0 then [(7, 1)] else [] }

/-- Claim C4, code evaluated at the failing input: with `MaxVotes = 1` and
one vote already recorded, a further `vote_topic` call succeeds (the
source checks `votes_by_who <= MaxVotes`, an off-by-one), reserves a fee,
and appends a second record, so the voter ends with MaxVotes + 1 votes. -/
theorem c4_vote_cap_off_by_one :
    cfgM.maxVotes = 1 ∧
    (sCap.votes 0).length = 1 ∧
    (vote_topic cfgM sCap 1 8 0).2 = none ∧
    (vote_topic cfgM sCap 1 8 0).1.votes 0 = [(7, 1), (8, 1)] ∧
    (vote_topic cfgM sCap 1 8 0).1.reserved 1 = 30 := by
  decide

/-- Claim C8 counterexample: at tick 0 (an era boundary, since
0 mod EraDuration = 0) the computation `block_number - T::OneBlock::get()`
underflows, so `advance` has a failure (panic) path at tick 0. -/
theorem c8_tick_zero_underflow :
    advance cfg0 emptyState 0 = none ∧ (0 : Nat) % cfg0.eraDuration = 0 :=
  ⟨rfl, by decide⟩

/-- Queue contains hash 5 while `Topics` does not: the (genesis-unreachable)
configuration that fires the defensive queue check. -/
def sBadQueue : State :=
  { emptyState with topicsNextEra := some [5] }

/-- Claim C9 counterexample: from a state where hash 5 is queued but absent
from `Topics`, `submit_topic` of bytes hashing to 5 fails with
`DuplicateTopic` at the defensive queue check, yet the returned storage has
the topic inserted into `Topics` and the deposit still reserved — a
partial mutation observable after a failure. -/
theorem c9_defensive_check_partial_mutation :
    (sBadQueue.topics 5).isSome = false ∧ sBadQueue.reserved 1 = 0 ∧
    (submit_topic cfg0 sBadQueue 1 [5] 0).2 = some Error.DuplicateTopic ∧
    ((submit_topic cfg0 sBadQueue 1 [5] 0).1.topics 5).isSome = true ∧
    (submit_topic cfg0 sBadQueue 1 [5] 0).1.reserved 1 = submissionDeposit := by
  decide

end QuadVoting

namespace QuadVoting

/-- Three topics queued for the next era. -/
def sQueued : State :=
  { emptyState with topicsNextEra := some [1, 2, 3] }

/-- Witness for C5 at the boundary tick 10. -/
theorem c5_witness :
    ∃ s₁, advance cfg0 sQueued 10 = some s₁ ∧
      s₁.topicsCurrEra = some [1, 2, 3] ∧ s₁.topicsNextEra = none := by
  refine ⟨_, rfl, ?_, ?_⟩
  · exact ((c5_rollover_promotes_queue cfg0 sQueued 10 _ (by decide) rfl).1).trans rfl
  · exact (c5_rollover_promotes_queue cfg0 sQueued 10 _ (by decide) rfl).2

/-- Witness for C6: a log where topic 3 strictly dominates, and a rollover
over an empty previous log writing no winner. -/
theorem c6_witness :
    (∃ w, tallyVotes [(9, 1), (4, 2)] = some w ∧
      w ∈ [(9, 1), (4, 2)].map Prod.fst) ∧
    tallyVotes [(3, 1), (3, 2), (5, 9)] = some 3 ∧
    (∃ s₁, advance cfg0 emptyState 20 = some s₁ ∧
      s₁.winners = emptyState.winners) := by
  refine ⟨?_, ?_, ?_⟩
  · obtain ⟨w, hw, hwm, -⟩ := c6_tally_strict_max.2.1 [(9, 1), (4, 2)] (by decide)
    exact ⟨w, hw, hwm⟩
  · exact c6_tally_strict_max.2.2.1 [(3, 1), (3, 2), (5, 9)] 3 (by decide) (by decide)
  · refine ⟨_, rfl, ?_⟩
    exact c6_tally_strict_max.2.2.2 cfg0 emptyState 20 _ (by decide) rfl (by decide)

/-- A vote for topic 7 recorded under key 10, the era-start key read by the
rollover at tick 20. -/
def sEraTen : State :=
  { emptyState with votes := fun b => if b = 10 then [(7, 1)] else [] }

/-- Witness for C7: running `advance` twice at boundary tick 20. -/
theorem c7_witness :
    ∃ s₁ s₂, advance cfg0 sEraTen 20 = some s₁ ∧
      advance cfg0 s₁ 20 = some s₂ ∧
      s₂.winners = s₁.winners ∧ s₁.winners 0 = sEraTen.winners 0 := by
  refine ⟨_, _, rfl, rfl, ?_, ?_⟩
  · exact (c7_winner_write_idempotent cfg0 sEraTen 20 _ _ rfl rfl).1
  · exact (c7_winner_write_idempotent cfg0 sEraTen 20 _ _ rfl rfl).2 0 (by decide)

/-- Witness for C8 (amended): no panic at the boundary tick 10. -/
theorem c8_witness :
    (0 < cfg0.eraDuration ∧ cfg0.oneBlock ≤ 10) ∧
      ∃ s', advance cfg0 emptyState 10 = some s' :=
  ⟨⟨by decide, by decide⟩,
    c8_no_panic_from_first_block cfg0 emptyState 10 (by decide) (by decide)⟩

/-- Hash 5 already present in `Topics` (a state satisfying the queue
invariant, with an empty queue). -/
def sDupTopic : State :=
  { emptyState with
      topics := fun h => if h = 5 then
        some { data := [5], provider := 1, deposit := 10, since := 0 }
      else none }

/-- Witness for C9 (amended): a duplicate submission fails and leaves the
state exactly unchanged. -/
theorem c9_witness :
    submit_topic cfg0 sDupTopic 1 [5] 0 = (sDupTopic, some Error.DuplicateTopic) ∧
    (submit_topic cfg0 sDupTopic 1 [5] 0).1 = sDupTopic := by
  refine ⟨rfl, ?_⟩
  exact (c9_all_or_nothing cfg0 sDupTopic
      (by intro h hh; simp [sDupTopic, emptyState] at hh)).1
    1 [5] 0 (submit_topic cfg0 sDupTopic 1 [5] 0).1 Error.DuplicateTopic rfl

/-- Witness for C10: a successful vote at block 12 from genesis-like
storage. -/
theorem c10_witness :
    vote_topic cfg0 emptyState 1 7 12
      = ((vote_topic cfg0 emptyState 1 7 12).1, none) ∧
    (vote_topic cfg0 emptyState 1 7 12).1.votes 12
      = emptyState.votes 12 ++ [(7, 1)] ∧
    (vote_topic cfg0 emptyState 1 7 12).1.votes 2 = emptyState.votes 2 ∧
    (vote_topic cfg0 emptyState 1 7 12).1.winners = emptyState.winners := by
  refine ⟨rfl, ?_, ?_, ?_⟩
  · exact (c10_vote_success_frame cfg0 emptyState 1 7 12 _ rfl).1
  · exact (c10_vote_success_frame cfg0 emptyState 1 7 12 _ rfl).2.1 2 (by decide)
  · exact (c10_vote_success_frame cfg0 emptyState 1 7 12 _ rfl).2.2.2.2.2

end QuadVoting
